import Mathlib

/-!
Verification of the slice curation and geometric reconciliation pipeline of
dicom2nifti (src/dicom2nifti/convert_generic.py), shallowly embedded in Lean.

Conventions of the embedding:
* a DICOM slice is a record of the header fields the code reads;
* physical coordinates are rationals (the code's floating point arithmetic on
  positions and tolerances is modelled exactly over the rationals);
* Euclidean norms are tracked through their squares (`normSq`): the map
  x ↦ x ^ 2 is strictly monotone on nonnegatives, so maxima, equalities and
  comparisons of norms correspond exactly to those of squared norms and no
  square root is needed;
* Python functions that can raise on some inputs are embedded with `Option`
  or `Except` results.
-/

/-- A 3-vector of physical coordinates. -/
abbrev V3 : Type := ℚ × ℚ × ℚ

/-- A DICOM slice, restricted to the header fields `convert_generic.py`
reads: position, the two orientation direction cosines, the pixel grid,
the modality string and the optional image-type descriptor list. -/
structure Dicom where
  ImagePositionPatient : V3
  ImageOrientationPatient : V3 × V3
  pixel_array : List (List ℤ)
  Modality : String
  ImageType : Option (List String)
deriving DecidableEq

/-- Componentwise difference of 3-vectors (numpy array subtraction). -/
def vsub (a b : V3) : V3 :=
  (a.1 - b.1, a.2.1 - b.2.1, a.2.2 - b.2.2)

/-- Squared Euclidean norm of a 3-vector (stands for
`numpy.linalg.norm(v) ** 2`). -/
def normSq (v : V3) : ℚ :=
  v.1 * v.1 + v.2.1 * v.2.1 + v.2.2 * v.2.2

/-- Absolute value on ℚ, spelled out so that it evaluates by kernel
reduction. -/
def qabs (x : ℚ) : ℚ := if x < 0 then -x else x

/-- Binary maximum on ℚ, spelled out so that it evaluates by kernel
reduction. -/
def qmax (a b : ℚ) : ℚ := if a ≤ b then b else a

/-- One component of `numpy.allclose`: `|a - b| <= atol + rtol * |b|`. -/
def closeTo (rtol atol a b : ℚ) : Bool :=
  decide (qabs (a - b) ≤ atol + rtol * qabs b)

/-- `numpy.allclose` on 3-vectors: every component of `a` is close to the
corresponding component of `b` within relative tolerance `rtol` and absolute
tolerance `atol`. -/
def allclose (rtol atol : ℚ) (a b : V3) : Bool :=
  closeTo rtol atol a.1 b.1 && closeTo rtol atol a.2.1 b.2.1 &&
    closeTo rtol atol a.2.2 b.2.2

/-- Loop state of `_convert_slice_incement_inconsistencies`: the current
reference increment, the running maximum of the squared displacement norms,
the closed groups, the group being built and the previous image position. -/
structure SplitState where
  increment : V3
  maxSq : ℚ
  groups : List (List Dicom)
  current : List Dicom
  prev : V3

/-- One iteration of the loop body of
`_convert_slice_incement_inconsistencies` (lines 187-197 of
convert_generic.py): compute the displacement from the previous position,
update the running maximum, then either extend the current group or close it
and open a new group seeded with the closed group's last slice, taking the
displacement as new reference increment. -/
def splitStep (st : SplitState) (d : Dicom) : SplitState :=
  let cur := d.ImagePositionPatient
  let inc := vsub st.prev cur
  let m := qmax st.maxSq (normSq inc)
  if allclose (1/20) (1/10) st.increment inc then
    { st with maxSq := m, current := st.current ++ [d], prev := cur }
  else
    { increment := inc
      maxSq := m
      groups := st.groups ++ [st.current]
      current := [st.current.getLastD d, d]
      prev := cur }

/-- The splitting phase of `_convert_slice_incement_inconsistencies`
(lines 179-198): seed the reference increment from the first two slices,
fold the loop body over the remaining slices and close the final group.
Returns the ordered list of groups together with the maximum squared
displacement norm (the code returns the norm itself; squares are an exact
stand-in, see the module docstring).  `none` models the `IndexError` the
Python code raises on fewer than two slices. -/
def convert_slice_incement_inconsistencies (dicom_input : List Dicom) :
    Option (List (List Dicom) × ℚ) :=
  match dicom_input with
  | d0 :: d1 :: rest =>
      let st0 : SplitState :=
        { increment := vsub d0.ImagePositionPatient d1.ImagePositionPatient
          maxSq := 0
          groups := []
          current := [d0, d1]
          prev := d1.ImagePositionPatient }
      let st := rest.foldl splitStep st0
      some (st.groups ++ [st.current], st.maxSq)
  | _ => none

/-- A slice placed at coordinate `x` along the first axis, with fixed
orientation and content; used for concrete scenarios. -/
def sliceAt (x : ℚ) : Dicom :=
  { ImagePositionPatient := (x, 0, 0)
    ImageOrientationPatient := ((1, 0, 0), (0, 1, 0))
    pixel_array := [[0]]
    Modality := "CT"
    ImageType := none }

/-- Squared norms of the displacements of all consecutive slice pairs of a
series, in order. -/
def consecDispSq : List Dicom → List ℚ
  | a :: b :: t =>
      normSq (vsub a.ImagePositionPatient b.ImagePositionPatient) ::
        consecDispSq (b :: t)
  | _ => []

/-- Maximum squared norm over the displacements of all consecutive slice
pairs of a series (0 for fewer than two slices).  This is the spec's
description of the diagnostic: the maximum over the whole series. -/
def maxConsecDispSq (l : List Dicom) : ℚ :=
  (consecDispSq l).foldl qmax 0

/-- Running maximum of squared consecutive displacement norms, threaded
through an explicit previous position, exactly as the splitting loop does. -/
def pairFoldMax (p : V3) (acc : ℚ) : List Dicom → ℚ
  | [] => acc
  | d :: t =>
      pairFoldMax d.ImagePositionPatient
        (qmax acc (normSq (vsub p d.ImagePositionPatient))) t

/-- Two runs share their boundary when the last slice of the first is the
first slice of the second. -/
def sharesBoundary (a b : List Dicom) : Prop :=
  a.getLast? = b.head?

/-- Invariant maintained by the splitting loop: the group being built has at
least two slices, every closed group has at least two slices, and closed
groups followed by the current group form a boundary-sharing chain. -/
def SplitInv (st : SplitState) : Prop :=
  2 ≤ st.current.length ∧ (∀ g ∈ st.groups, 2 ≤ g.length) ∧
    List.Chain' sharesBoundary (st.groups ++ [st.current])

/-- One iteration of the loop of `_remove_duplicate_slices` (lines 105-114):
the first component of the state is the dictionary of first-seen slices per
position (`dicoms_dict`, keyed by `ImagePositionPatient`), the second the
output built so far (`filtered_dicoms`).  A slice whose position is new is
recorded and kept; a slice whose position was seen before is dropped when
its pixel grid equals the grid of the *first* slice recorded at that
position, and kept (without touching the dictionary) otherwise. -/
def dedupStep (st : List Dicom × List Dicom) (d : Dicom) :
    List Dicom × List Dicom :=
  match st.1.find?
      (fun e => decide (e.ImagePositionPatient = d.ImagePositionPatient)) with
  | none => (st.1 ++ [d], st.2 ++ [d])
  | some e =>
      if e.pixel_array = d.pixel_array then st else (st.1, st.2 ++ [d])

/-- `_remove_duplicate_slices` (lines 97-115). -/
def remove_duplicate_slices (dicoms : List Dicom) : List Dicom :=
  (dicoms.foldl dedupStep ([], [])).2

/-- Keep-predicate of the claimed duplicate filter, following the spec's
words: a slice is discarded exactly when some earlier slice has the
identical position key and exactly equal pixel grid. -/
def dedupClaimKeep (prev : List Dicom) (d : Dicom) : Bool :=
  !(prev.any (fun e =>
    decide (e.ImagePositionPatient = d.ImagePositionPatient) &&
      decide (e.pixel_array = d.pixel_array)))

/-- The duplicate filter as the claim describes it, threading the list of
all previously seen slices. -/
def dedupClaim (prev : List Dicom) : List Dicom → List Dicom
  | [] => []
  | d :: rest =>
      if dedupClaimKeep prev d then d :: dedupClaim (prev ++ [d]) rest
      else dedupClaim (prev ++ [d]) rest

/-- Keep-predicate of the amended duplicate filter: a slice is discarded
exactly when an earlier slice has the identical position key and the
*first* such earlier slice has exactly equal pixel grid. -/
def dedupAmendedKeep (prev : List Dicom) (d : Dicom) : Bool :=
  match prev.find?
      (fun e => decide (e.ImagePositionPatient = d.ImagePositionPatient)) with
  | none => true
  | some e => !(decide (e.pixel_array = d.pixel_array))

/-- The duplicate filter as amended, threading the list of all previously
seen slices. -/
def dedupAmended (prev : List Dicom) : List Dicom → List Dicom
  | [] => []
  | d :: rest =>
      if dedupAmendedKeep prev d then d :: dedupAmended (prev ++ [d]) rest
      else dedupAmended (prev ++ [d]) rest

/-- Membership of a marker string in the slice's image-type descriptor list
(`'MARKER' in dicom_.ImageType`, guarded by `'ImageType' in dicom_`);
`false` when the attribute is absent. -/
def imageTypeContains (d : Dicom) (marker : String) : Bool :=
  match d.ImageType with
  | some l => decide (marker ∈ l)
  | none => false

/-- Substring containment on character lists: Python's `needle in hay`. -/
def containsSubstr : List Char → List Char → Bool
  | n, [] => decide (n = [])
  | n, c :: t => n.isPrefixOf (c :: t) || containsSubstr n t

/-- Loop body of `_remove_localizers_by_imagetype` (lines 124-130): skip a
slice whose image-type list contains LOCALIZER, or whose modality contains
the substring CT while its image-type list contains PROJECTION IMAGE;
append every other slice to the output. -/
def imagetypeStep (acc : List Dicom) (d : Dicom) : List Dicom :=
  if imageTypeContains d "LOCALIZER" then acc
  else if containsSubstr "CT".toList d.Modality.toList &&
      imageTypeContains d "PROJECTION IMAGE" then acc
  else acc ++ [d]

/-- `_remove_localizers_by_imagetype` (lines 118-131). -/
def remove_localizers_by_imagetype (dicoms : List Dicom) : List Dicom :=
  dicoms.foldl imagetypeStep []

/-- Keep-predicate of the claimed image-type filter, following the spec's
words: the CT-specific rule applies to slices whose modality *is* CT. -/
def imagetypeClaimKeep (d : Dicom) : Bool :=
  !(imageTypeContains d "LOCALIZER") &&
    !(decide (d.Modality = "CT") && imageTypeContains d "PROJECTION IMAGE")

/-- Keep-predicate of the amended image-type filter: the CT-specific rule
applies to slices whose modality *contains* CT as a substring. -/
def imagetypeKeep (d : Dicom) : Bool :=
  !(imageTypeContains d "LOCALIZER") &&
    !(containsSubstr "CT".toList d.Modality.toList &&
      imageTypeContains d "PROJECTION IMAGE")

/-- Orientation closeness test of `_remove_localizers_by_orientation`
(lines 151-153): both direction cosine vectors componentwise allclose with
relative and absolute tolerance 0.001. -/
def orientClose (a b : V3 × V3) : Bool :=
  allclose (1/1000) (1/1000) a.1 b.1 && allclose (1/1000) (1/1000) a.2 b.2

/-- Greedy insertion of a slice into the orientation groups (lines 149-159):
the slice joins the first group whose representative orientation it is
close to, otherwise it opens a new group at the end.  The association list
mirrors the insertion-ordered `orientations` list and `sorted_dicoms`
dictionary. -/
def addToGroups : List ((V3 × V3) × List Dicom) → Dicom →
    List ((V3 × V3) × List Dicom)
  | [], d => [(d.ImageOrientationPatient, [d])]
  | (ro, ds) :: rest, d =>
      if orientClose d.ImageOrientationPatient ro then (ro, ds ++ [d]) :: rest
      else (ro, ds) :: addToGroups rest d

/-- The orientation groups built by the loop of
`_remove_localizers_by_orientation` over the whole series. -/
def orientationGroups (dicoms : List Dicom) : List ((V3 × V3) × List Dicom) :=
  dicoms.foldl addToGroups []

/-- `_remove_localizers_by_orientation` (lines 134-171): with more than one
orientation group, concatenate the slices of the groups with at least 4
members; with exactly one group return its slices (the whole input).
`none` models the `StopIteration` raised by `six.next` on an empty series
(empty dictionary). -/
def remove_localizers_by_orientation (dicoms : List Dicom) :
    Option (List Dicom) :=
  let gs := orientationGroups dicoms
  if 1 < gs.length then
    some ((gs.filter (fun g => 4 ≤ g.2.length)).foldl
      (fun acc g => acc ++ g.2) [])
  else (gs.head?).map (fun g => g.2)

/-- Per-run data consumed by the voxel-size selection of
`_convert_slice_incement_inconsistencies` (lines 201-212).  Modelled from
the spec: the scalar voxel-spacing value (`numpy.linalg.norm` of the
volume's zooms) and the zooms triple are produced by
`common.create_affine` / `nibabel`, which are not part of this source
file; they enter here as per-run data. -/
structure IncrementRun where
  len : ℕ
  spacing : ℚ
  zooms : V3
deriving DecidableEq

/-- Rounding to five decimal places: the integer numerator of the string
key produced by `'%.5f' % x`. -/
def round5 (x : ℚ) : ℤ := ⌊x * 100000 + 1 / 2⌋

/-- Modelled from the spec: `numpy.percentile(l, 10)` with the default
linear interpolation — index `(n - 1) / 10` into the ascending sort, the
fractional part interpolating between the two neighbouring entries;
`none` on an empty list (numpy raises). -/
def percentile10 (l : List ℚ) : Option ℚ :=
  match l.insertionSort (· ≤ ·) with
  | [] => none
  | a :: rest =>
      let h : ℚ := ((l.length : ℚ) - 1) / 10
      let i : ℕ := (⌊h⌋).toNat
      let lo := (a :: rest).getD i a
      let hi := (a :: rest).getD (i + 1) lo
      some (lo + (h - (i : ℚ)) * (hi - lo))

/-- The pooled spacing samples (line 210): each run contributes its spacing
value once per internal displacement, i.e. run length minus 1 times. -/
def pooledIncrements (runs : List IncrementRun) : List ℚ :=
  (runs.map (fun r => List.replicate (r.len - 1) r.spacing)).flatten

/-- The voxel-size selection of `_convert_slice_incement_inconsistencies`
(lines 201-212): build the `voxel_sizes` dictionary keyed by the rounded
spacing value (later runs overwrite earlier ones with the same key, so the
lookup finds the last binding), take the 10th percentile of the pooled
spacing samples and look its rounded value up; `none` models the `KeyError`
when no run's key equals the percentile's key. -/
def chooseVoxelSize (runs : List IncrementRun) : Option V3 :=
  match percentile10 (pooledIncrements runs) with
  | none => none
  | some p =>
      (((runs.map (fun r => (round5 r.spacing, r.zooms))).reverse.find?
        (fun kv => decide (kv.1 = round5 p))).map (fun kv => kv.2))

/-- The configuration flags of `dicom2nifti.settings` read by
`dicom_to_nifti`. -/
structure Settings where
  validate_slicecount : Bool
  validate_orientation : Bool
  validate_orthogonal : Bool
  validate_slice_increment : Bool
  resample : Bool

/-- Failure outcomes of the conversion: the `ConversionError` reason codes,
plus a constructor for the uncaught `StopIteration` escaping
`_remove_localizers_by_orientation` on an empty series. -/
inductive ConvError where
  | NO_DICOM_FILES_FOUND
  | SLICE_COUNT_INVALID
  | ORIENTATION_INVALID
  | ORTHOGONALITY_INVALID
  | SLICE_INCREMENT_INCONSISTENT
  | EMPTY_ORIENTATION_GROUPS
deriving DecidableEq

/-- The two ways a volume can be assembled. -/
inductive AssemblyPath where
  | direct
  | splitResample
deriving DecidableEq

/-- The slice-increment branch of `dicom_to_nifti` (lines 62-81).  Modelled
from the spec: `common.validate_slice_increment` (not under src/) raises on
inconsistent spacing when the check is enabled, and
`common.is_slice_increment_inconsistent` (not under src/) reports the same
inconsistency without raising; both are represented by the boolean
`inconsistent`.  The split-and-resample path is taken when the resulting
flag and the resample setting are both set, otherwise the direct path. -/
def conversionPath (s : Settings) (inconsistent : Bool) :
    Except ConvError AssemblyPath :=
  if s.validate_slice_increment then
    if inconsistent then Except.error ConvError.SLICE_INCREMENT_INCONSISTENT
    else Except.ok AssemblyPath.direct
  else if inconsistent && s.resample then Except.ok AssemblyPath.splitResample
  else Except.ok AssemblyPath.direct

/-- Cross product of 3-vectors. -/
def crossProd (a b : V3) : V3 :=
  (a.2.1 * b.2.2 - a.2.2 * b.2.1,
   a.2.2 * b.1 - a.1 * b.2.2,
   a.1 * b.2.1 - a.2.1 * b.1)

/-- Dot product of 3-vectors. -/
def dotProd (a b : V3) : ℚ :=
  a.1 * b.1 + a.2.1 * b.2.1 + a.2.2 * b.2.2

/-- Modelled from the spec: the sort key of `common.sort_dicoms` (not under
src/) — the signed projection of the slice position onto the normal derived
from the cross product of its orientation vectors. -/
def projectionKey (d : Dicom) : ℚ :=
  dotProd
    (crossProd d.ImageOrientationPatient.1 d.ImageOrientationPatient.2)
    d.ImagePositionPatient

/-- Modelled from the spec: `common.sort_dicoms` (not under src/), a stable
ascending sort by the projection key. -/
def sort_dicoms (dicoms : List Dicom) : List Dicom :=
  dicoms.insertionSort (fun a b => projectionKey a ≤ projectionKey b)

/-- `dicom_to_nifti` (lines 29-94) up to volume assembly: the empty-input
guard, the three curation filters, the four validators and the choice of
assembly path.  Modelled from the spec: the outcomes of the external
validators `common.validate_slicecount`, `common.validate_orientation` and
`common.validate_orthogonal` (not under src/) are supplied as the booleans
`slicecountOK`, `orientationOK`, `orthogonalOK`; slice-increment
consistency as `inconsistent` (see `conversionPath`).  Volume assembly,
TR/TE tagging and writing are external and not modelled; the result is the
chosen assembly path and the curated, sorted series it operates on. -/
def dicom_to_nifti (s : Settings)
    (slicecountOK orientationOK orthogonalOK inconsistent : Bool)
    (dicom_input : List Dicom) :
    Except ConvError (AssemblyPath × List Dicom) :=
  if dicom_input.length ≤ 0 then Except.error ConvError.NO_DICOM_FILES_FOUND
  else
    let d1 := remove_duplicate_slices dicom_input
    let d2 := remove_localizers_by_imagetype d1
    match (if s.validate_slicecount
        then remove_localizers_by_orientation d2 else some d2) with
    | none => Except.error ConvError.EMPTY_ORIENTATION_GROUPS
    | some d3 =>
        if s.validate_slicecount && !slicecountOK then
          Except.error ConvError.SLICE_COUNT_INVALID
        else if s.validate_orientation && !orientationOK then
          Except.error ConvError.ORIENTATION_INVALID
        else if s.validate_orthogonal && !orthogonalOK then
          Except.error ConvError.ORTHOGONALITY_INVALID
        else
          match conversionPath s inconsistent with
          | Except.error e => Except.error e
          | Except.ok p => Except.ok (p, sort_dicoms d3)

/-- Concrete slice at the origin with pixel value 0. -/
def dupA : Dicom :=
  ⟨(0, 0, 0), ((1, 0, 0), (0, 1, 0)), [[0]], "CT", none⟩

/-- Concrete slice at the origin with pixel value 1: same position as
`dupA`, different content. -/
def dupB : Dicom :=
  ⟨(0, 0, 0), ((1, 0, 0), (0, 1, 0)), [[1]], "CT", none⟩

/-- Concrete slice whose modality is OCT — not CT, but containing CT as a
substring — and whose image-type list carries the projection-image
marker. -/
def octSlice : Dicom :=
  ⟨(0, 0, 0), ((1, 0, 0), (0, 1, 0)), [[0]], "OCT", some ["PROJECTION IMAGE"]⟩

/-- Concrete slice with an orientation far from `sliceAt`'s. -/
def orthoSlice : Dicom :=
  ⟨(0, 0, 0), ((0, 0, 1), (0, 1, 0)), [[0]], "CT", none⟩

/-! ### Theorems -/

theorem qabs_eq_abs (x : ℚ) : qabs x = |x| := by
  by_cases h : x < 0
  · simp [qabs, h, abs_of_neg h]
  · simp [qabs, h, abs_of_nonneg (le_of_not_lt h)]

theorem qmax_eq_max (a b : ℚ) : qmax a b = max a b := by
  by_cases h : a ≤ b
  · simp [qmax, h, max_eq_right h]
  · simp [qmax, h, max_eq_left (le_of_not_le h)]

theorem foldl_splitStep_maxSq (l : List Dicom) (st : SplitState) :
    (l.foldl splitStep st).maxSq = pairFoldMax st.prev st.maxSq l := by
  induction l generalizing st with
  | nil => rfl
  | cons d t ih =>
      rw [List.foldl_cons, ih]
      unfold splitStep
      dsimp only
      split <;> rfl

theorem pairFoldMax_eq_foldl (t : List Dicom) (b : Dicom) (acc : ℚ) :
    pairFoldMax b.ImagePositionPatient acc t =
      (consecDispSq (b :: t)).foldl qmax acc := by
  induction t generalizing b acc with
  | nil => rfl
  | cons d t' ih =>
      rw [pairFoldMax]
      rw [ih d]
      rfl

theorem getLast?_eq_getLastD {l : List Dicom} (d : Dicom) (h : l ≠ []) :
    l.getLast? = some (l.getLastD d) := by
  cases l with
  | nil => exact absurd rfl h
  | cons a t =>
      rw [List.getLastD_eq_getLast?]
      cases hl : (a :: t).getLast? with
      | none => simp at hl
      | some x => rfl

theorem splitStep_inv {st : SplitState} (d : Dicom) (h : SplitInv st) :
    SplitInv (splitStep st d) := by
  obtain ⟨inc, mx, gs, cur, pv⟩ := st
  obtain ⟨hcur, hgrp, hchain⟩ := h
  simp only [SplitInv] at hcur hgrp hchain ⊢
  have hne : cur ≠ [] := by
    intro he
    rw [he] at hcur
    exact absurd hcur (by norm_num)
  unfold splitStep
  dsimp only
  split
  · refine ⟨?_, hgrp, ?_⟩
    · simpa using Nat.le_succ_of_le hcur
    · rw [List.chain'_append] at hchain ⊢
      refine ⟨hchain.1, List.chain'_singleton _, ?_⟩
      intro x hx y hy
      have hy' : cur ++ [d] = y := by simpa using hy
      have hb : sharesBoundary x cur := hchain.2.2 x hx cur (by simp)
      subst hy'
      unfold sharesBoundary at hb ⊢
      rw [hb]
      cases cur with
      | nil => exact absurd rfl hne
      | cons c cs => simp
  · refine ⟨by simp, ?_, ?_⟩
    · intro g hg
      rcases List.mem_append.1 hg with hg | hg
      · exact hgrp g hg
      · rw [List.mem_singleton.1 hg]; exact hcur
    · rw [List.chain'_append]
      refine ⟨hchain, List.chain'_singleton _, ?_⟩
      intro x hx y hy
      have hy' : [cur.getLastD d, d] = y := by simpa using hy
      have hx' : cur = x := by
        rw [List.getLast?_concat] at hx
        simpa using hx
      subst hy' hx'
      unfold sharesBoundary
      rw [getLast?_eq_getLastD d hne]
      rfl

theorem foldl_splitStep_inv (l : List Dicom) (st : SplitState)
    (h : SplitInv st) : SplitInv (l.foldl splitStep st) := by
  induction l generalizing st with
  | nil => exact h
  | cons d t ih => exact ih _ (splitStep_inv d h)

/-- C2: every run produced by the subvolume splitter on a series of at least
two slices has at least two slices, and consecutive runs share their
boundary slice (the last slice of the earlier run is the first slice of the
later run). -/
theorem claim_C2_run_invariants (dicom_input : List Dicom)
    (runs : List (List Dicom)) (m : ℚ)
    (h : convert_slice_incement_inconsistencies dicom_input = some (runs, m)) :
    (∀ g ∈ runs, 2 ≤ g.length) ∧ List.Chain' sharesBoundary runs := by
  match dicom_input with
  | [] => simp [convert_slice_incement_inconsistencies] at h
  | [d] => simp [convert_slice_incement_inconsistencies] at h
  | d0 :: d1 :: rest =>
      simp only [convert_slice_incement_inconsistencies, Option.some.injEq,
        Prod.mk.injEq] at h
      obtain ⟨hruns, -⟩ := h
      have hinv := foldl_splitStep_inv rest
        { increment := vsub d0.ImagePositionPatient d1.ImagePositionPatient
          maxSq := 0
          groups := []
          current := [d0, d1]
          prev := d1.ImagePositionPatient }
        ⟨by norm_num, by simp, by simp⟩
      obtain ⟨hcur, hgrp, hchain⟩ := hinv
      subst hruns
      refine ⟨?_, hchain⟩
      intro g hg
      rcases List.mem_append.1 hg with hg | hg
      · exact hgrp g hg
      · rw [List.mem_singleton.1 hg]; exact hcur

/-- Witness for C2 at the concrete series with positions 0, 1, 3: the two
runs [0,1] and [1,3] each have two slices and share the slice at 1. -/
theorem claim_C2_run_invariants_witness :
    (∀ g ∈ [[sliceAt 0, sliceAt 1], [sliceAt 1, sliceAt 3]], 2 ≤ g.length) ∧
      List.Chain' sharesBoundary [[sliceAt 0, sliceAt 1], [sliceAt 1, sliceAt 3]] :=
  claim_C2_run_invariants [sliceAt 0, sliceAt 1, sliceAt 3]
    [[sliceAt 0, sliceAt 1], [sliceAt 1, sliceAt 3]] 4
    (by norm_num [convert_slice_incement_inconsistencies, splitStep, sliceAt,
      vsub, normSq, qmax, qabs, allclose, closeTo, List.foldl])

/-- C1: on the sorted series with positions 0, 1, 2, 4, 5 along the normal
axis, the subvolume splitter produces exactly the three runs [0,1,2], [2,4],
[4,5] — consecutive runs sharing the boundary slices at positions 2 and 4 —
and the maximum displacement it returns is 2 (tracked here as its square,
2 ^ 2). -/
theorem claim_C1_split_literal_scenario :
    convert_slice_incement_inconsistencies
      [sliceAt 0, sliceAt 1, sliceAt 2, sliceAt 4, sliceAt 5] =
    some ([[sliceAt 0, sliceAt 1, sliceAt 2],
           [sliceAt 2, sliceAt 4],
           [sliceAt 4, sliceAt 5]], (2 : ℚ) * 2) := by
  norm_num [convert_slice_incement_inconsistencies, splitStep, sliceAt, vsub,
    normSq, qmax, qabs, allclose, closeTo, List.foldl]

/-- C4 counterexample: on the series with positions 0, 10, 11 the splitter
returns maximum squared displacement 1 (the 10 → 11 step), while the maximum
over all consecutive pairs — including the first pair, displacement 10 —
is 100.  The diagnostic therefore does not include the displacement between
the first and second slices. -/
theorem claim_C4_counterexample :
    (convert_slice_incement_inconsistencies
        [sliceAt 0, sliceAt 10, sliceAt 11]).map (fun r => r.2) = some 1 ∧
      maxConsecDispSq [sliceAt 0, sliceAt 10, sliceAt 11] = 100 ∧
      (1 : ℚ) ≠ 100 := by
  refine ⟨?_, ?_, by norm_num⟩
  · norm_num [convert_slice_incement_inconsistencies, splitStep, sliceAt,
      vsub, normSq, qmax, qabs, allclose, closeTo, List.foldl]
  · norm_num [maxConsecDispSq, consecDispSq, sliceAt, vsub, normSq, qmax,
      List.foldl]

/-- C4 amended: the maximum-displacement diagnostic returned by the
subvolume splitter equals the maximum Euclidean norm (tracked as its square)
over the displacements of the consecutive slice pairs of the series
excluding the pair formed by the first and second slices, i.e. the maximum
over the consecutive pairs of the tail; in particular it is 0 for a
two-slice series. -/
theorem claim_C4_amended_max_excludes_first_pair (d0 d1 : Dicom)
    (rest : List Dicom) :
    (convert_slice_incement_inconsistencies (d0 :: d1 :: rest)).map
        (fun r => r.2) =
      some (maxConsecDispSq (d1 :: rest)) := by
  unfold convert_slice_incement_inconsistencies
  dsimp only [Option.map]
  rw [foldl_splitStep_maxSq]
  rw [show pairFoldMax d1.ImagePositionPatient 0 rest =
      (consecDispSq (d1 :: rest)).foldl qmax 0 from
    pairFoldMax_eq_foldl rest d1 0]
  rfl

/-- C9: on an empty input series the conversion fails immediately with the
NO_DICOM_FILES_FOUND reason code, whatever the configuration and whatever
the external validators would have said — no pipeline stage runs and no
volume is produced. -/
theorem claim_C9_empty_input_fails (s : Settings)
    (slicecountOK orientationOK orthogonalOK inconsistent : Bool) :
    dicom_to_nifti s slicecountOK orientationOK orthogonalOK inconsistent [] =
      Except.error ConvError.NO_DICOM_FILES_FOUND := rfl

/-- C7: the split-and-resample path is taken exactly when slice-increment
validation is disabled, the sorted series is increment-inconsistent and the
resample flag is set; every other successful outcome takes the direct
path. -/
theorem claim_C7_path_selection (s : Settings) (inconsistent : Bool) :
    (conversionPath s inconsistent = Except.ok AssemblyPath.splitResample ↔
      s.validate_slice_increment = false ∧ inconsistent = true ∧
        s.resample = true) ∧
    (conversionPath s inconsistent = Except.ok AssemblyPath.direct ↔
      (∃ p, conversionPath s inconsistent = Except.ok p) ∧
        ¬(s.validate_slice_increment = false ∧ inconsistent = true ∧
          s.resample = true)) := by
  obtain ⟨a, b, c, v, r⟩ := s
  cases v <;> cases inconsistent <;> cases r <;>
    simp [conversionPath]

/-- Witness for C7: with all validators off, resampling allowed and an
inconsistent series, the split-and-resample path is chosen. -/
theorem claim_C7_path_selection_witness :
    conversionPath ⟨true, true, true, false, true⟩ true =
      Except.ok AssemblyPath.splitResample :=
  (claim_C7_path_selection ⟨true, true, true, false, true⟩ true).1.mpr
    ⟨rfl, rfl, rfl⟩

theorem imagetypeStep_eq (acc : List Dicom) (d : Dicom) :
    imagetypeStep acc d = if imagetypeKeep d then acc ++ [d] else acc := by
  unfold imagetypeStep imagetypeKeep
  cases h1 : imageTypeContains d "LOCALIZER" <;>
    cases h2 : containsSubstr "CT".toList d.Modality.toList <;>
      cases h3 : imageTypeContains d "PROJECTION IMAGE" <;> simp

theorem imagetype_foldl (l : List Dicom) (acc : List Dicom) :
    l.foldl imagetypeStep acc = acc ++ l.filter imagetypeKeep := by
  induction l generalizing acc with
  | nil => simp
  | cons d t ih =>
      rw [List.foldl_cons, List.filter_cons, imagetypeStep_eq]
      by_cases hk : imagetypeKeep d = true
      · rw [if_pos hk, if_pos hk, ih]
        simp
      · rw [if_neg hk, if_neg hk, ih]

/-- C8 counterexample: the slice with modality OCT and a PROJECTION IMAGE
image type is discarded by the code (substring test for CT), while the
claim — whose CT rule requires the modality to *be* CT — keeps it. -/
theorem claim_C8_counterexample :
    remove_localizers_by_imagetype [octSlice] = [] ∧
      [octSlice].filter imagetypeClaimKeep = [octSlice] ∧
      ([] : List Dicom) ≠ [octSlice] := by
  refine ⟨?_, ?_, by simp⟩
  · simp [remove_localizers_by_imagetype, imagetypeStep, octSlice,
      imageTypeContains, containsSubstr, List.isPrefixOf]
  · simp [imagetypeClaimKeep, octSlice, imageTypeContains]

/-- C8 amended: a slice is discarded exactly when its image-type list
contains the LOCALIZER marker, or its modality contains CT as a substring
and its image-type list contains the PROJECTION IMAGE marker; all other
slices are kept in original order. -/
theorem claim_C8_amended_imagetype_filter (dicoms : List Dicom) :
    remove_localizers_by_imagetype dicoms = dicoms.filter imagetypeKeep := by
  simpa [remove_localizers_by_imagetype] using imagetype_foldl dicoms []

theorem dedup_invariant (rest : List Dicom) (dict out prev : List Dicom)
    (hdict : ∀ d : Dicom,
      dict.find?
        (fun e => decide (e.ImagePositionPatient = d.ImagePositionPatient)) =
      prev.find?
        (fun e => decide (e.ImagePositionPatient = d.ImagePositionPatient))) :
    (rest.foldl dedupStep (dict, out)).2 = out ++ dedupAmended prev rest := by
  induction rest generalizing dict out prev with
  | nil => simp [dedupAmended]
  | cons d t ih =>
      rw [List.foldl_cons, dedupAmended]
      cases hf : dict.find?
          (fun e => decide (e.ImagePositionPatient = d.ImagePositionPatient))
          with
      | none =>
          have hp := (hdict d).symm.trans hf
          have hkeep : dedupAmendedKeep prev d = true := by
            rw [dedupAmendedKeep, hp]
          have hstep : dedupStep (dict, out) d = (dict ++ [d], out ++ [d]) := by
            rw [dedupStep]
            dsimp only
            rw [hf]
          rw [hstep, hkeep, if_pos rfl,
            ih (dict ++ [d]) (out ++ [d]) (prev ++ [d]) ?_]
          · simp
          · intro d'
            rw [List.find?_append, List.find?_append, hdict d']
      | some e =>
          have hp : prev.find?
              (fun e => decide (e.ImagePositionPatient = d.ImagePositionPatient))
              = some e := (hdict d).symm.trans hf
          have hd' : ∀ d' : Dicom,
              dict.find? (fun e =>
                decide (e.ImagePositionPatient = d'.ImagePositionPatient)) =
              (prev ++ [d]).find? (fun e =>
                decide (e.ImagePositionPatient = d'.ImagePositionPatient)) := by
            intro d'
            rw [List.find?_append, hdict d']
            by_cases hpos :
                d.ImagePositionPatient = d'.ImagePositionPatient
            · have hpred : (fun e : Dicom =>
                  decide (e.ImagePositionPatient = d'.ImagePositionPatient)) =
                  (fun e : Dicom =>
                  decide (e.ImagePositionPatient = d.ImagePositionPatient)) := by
                funext e
                rw [hpos]
              rw [hpred, hp]
              rfl
            · have : ([d].find? (fun e =>
                  decide (e.ImagePositionPatient = d'.ImagePositionPatient)))
                  = none := by
                simp [List.find?, hpos]
              rw [this]
              cases prev.find? (fun e =>
                decide (e.ImagePositionPatient = d'.ImagePositionPatient)) <;>
                rfl
          by_cases hpix : e.pixel_array = d.pixel_array
          · have hkeep : dedupAmendedKeep prev d = false := by
              rw [dedupAmendedKeep, hp]
              simp [hpix]
            have hstep : dedupStep (dict, out) d = (dict, out) := by
              rw [dedupStep]
              dsimp only
              rw [hf]
              dsimp only
              rw [if_pos hpix]
            rw [hstep, hkeep, if_neg (by simp), ih dict out (prev ++ [d]) hd']
          · have hkeep : dedupAmendedKeep prev d = true := by
              rw [dedupAmendedKeep, hp]
              simp [hpix]
            have hstep : dedupStep (dict, out) d = (dict, out ++ [d]) := by
              rw [dedupStep]
              dsimp only
              rw [hf]
              dsimp only
              rw [if_neg hpix]
            rw [hstep, hkeep, if_pos rfl, ih dict (out ++ [d]) (prev ++ [d]) hd']
            simp

/-- C6 counterexample: with input A, B, B' where B and B' share A's
position, carry identical pixel grids, and differ from A's pixel grid, the
code keeps all three slices (every later slice is compared against the
*first* slice recorded at the position, A), while the claim — discard
whenever *any* earlier slice matches in position and pixels — would drop
the third. -/
theorem claim_C6_counterexample :
    remove_duplicate_slices [dupA, dupB, dupB] = [dupA, dupB, dupB] ∧
      dedupClaim [] [dupA, dupB, dupB] = [dupA, dupB] ∧
      [dupA, dupB, dupB] ≠ [dupA, dupB] := by
  refine ⟨?_, ?_, by simp⟩
  · norm_num [remove_duplicate_slices, dedupStep, dupA, dupB, List.foldl,
      List.find?]
  · norm_num [dedupClaim, dedupClaimKeep, dupA, dupB, List.any]

/-- C6 amended: the duplicate filter discards a slice exactly when an
earlier slice has the identical position key and the *first* earlier slice
at that position has an exactly equal pixel grid; in particular a slice
whose pixel grid differs from that first-seen slice is retained, and the
output is the input in original order minus the discards. -/
theorem claim_C6_amended_duplicate_filter (dicoms : List Dicom) :
    remove_duplicate_slices dicoms = dedupAmended [] dicoms := by
  have h := dedup_invariant dicoms [] [] [] (fun d => rfl)
  simpa [remove_duplicate_slices] using h

theorem addToGroups_length_le (gs : List ((V3 × V3) × List Dicom))
    (d : Dicom) : gs.length ≤ (addToGroups gs d).length := by
  induction gs with
  | nil => simp [addToGroups]
  | cons g rest ih =>
      obtain ⟨ro, ds⟩ := g
      rw [addToGroups]
      by_cases h : orientClose d.ImageOrientationPatient ro = true
      · rw [if_pos h]
        simp
      · rw [if_neg h]
        simpa using ih

theorem foldl_addToGroups_length_le (ds : List Dicom)
    (gs : List ((V3 × V3) × List Dicom)) :
    gs.length ≤ (ds.foldl addToGroups gs).length := by
  induction ds generalizing gs with
  | nil => exact le_refl _
  | cons d t ih => exact (addToGroups_length_le gs d).trans (ih _)

theorem single_group_aux (ds : List Dicom) (ro : V3 × V3) (acc : List Dicom)
    (h : (ds.foldl addToGroups [(ro, acc)]).length = 1) :
    ds.foldl addToGroups [(ro, acc)] = [(ro, acc ++ ds)] := by
  induction ds generalizing acc with
  | nil => simp
  | cons d t ih =>
      rw [List.foldl_cons] at h ⊢
      rw [addToGroups] at h ⊢
      by_cases hc : orientClose d.ImageOrientationPatient ro = true
      · rw [if_pos hc] at h ⊢
        rw [ih (acc ++ [d]) h]
        simp
      · rw [if_neg hc] at h
        simp only [addToGroups] at h
        have h2 := foldl_addToGroups_length_le t
          [(ro, acc), (d.ImageOrientationPatient, [d])]
        rw [h] at h2
        exact absurd h2 (by norm_num)

theorem addToGroups_mem {gs : List ((V3 × V3) × List Dicom)} {d : Dicom}
    {g' : (V3 × V3) × List Dicom} (h : g' ∈ addToGroups gs d) :
    (∃ g ∈ gs, g'.2 = g.2 ++ [d]) ∨ g' ∈ gs ∨
      g' = (d.ImageOrientationPatient, [d]) := by
  induction gs with
  | nil =>
      simp only [addToGroups, List.mem_singleton] at h
      exact Or.inr (Or.inr h)
  | cons g0 rest ih =>
      obtain ⟨ro, ds⟩ := g0
      rw [addToGroups] at h
      by_cases hc : orientClose d.ImageOrientationPatient ro = true
      · rw [if_pos hc] at h
        rcases List.mem_cons.1 h with h | h
        · exact Or.inl ⟨(ro, ds), List.mem_cons_self _ _, by rw [h]⟩
        · exact Or.inr (Or.inl (List.mem_cons_of_mem _ h))
      · rw [if_neg hc] at h
        rcases List.mem_cons.1 h with h | h
        · rw [h]
          exact Or.inr (Or.inl (List.mem_cons_self _ _))
        · rcases ih h with ⟨g, hg, he⟩ | h | h
          · exact Or.inl ⟨g, List.mem_cons_of_mem _ hg, he⟩
          · exact Or.inr (Or.inl (List.mem_cons_of_mem _ h))
          · exact Or.inr (Or.inr h)

theorem foldl_addToGroups_sublist (ds : List Dicom)
    (gs : List ((V3 × V3) × List Dicom)) (l : List Dicom)
    (h : ∀ g ∈ gs, g.2.Sublist l) :
    ∀ g ∈ ds.foldl addToGroups gs, g.2.Sublist (l ++ ds) := by
  induction ds generalizing gs l with
  | nil => simpa using h
  | cons d t ih =>
      rw [List.foldl_cons]
      have hstep : ∀ g ∈ addToGroups gs d, g.2.Sublist (l ++ [d]) := by
        intro g hg
        rcases addToGroups_mem hg with ⟨g0, hg0, he⟩ | hg' | he
        · rw [he]
          exact (h g0 hg0).append (List.Sublist.refl [d])
        · exact (h g hg').trans (List.sublist_append_left _ _)
        · rw [he]
          exact List.sublist_append_right l [d]
      have hrec := ih (addToGroups gs d) (l ++ [d]) hstep
      simpa [List.append_assoc] using hrec

theorem foldl_extend (gs : List ((V3 × V3) × List Dicom))
    (acc : List Dicom) :
    gs.foldl (fun acc g => acc ++ g.2) acc =
      acc ++ (gs.map (fun g => g.2)).flatten := by
  induction gs generalizing acc with
  | nil => simp
  | cons g t ih =>
      rw [List.foldl_cons, ih]
      simp

/-- C5: when greedy tolerance clustering yields exactly one orientation
group the filter returns the input unchanged regardless of the group's
size; when it yields more than one group the output is the concatenation of
exactly the groups with at least 4 members, each group's slices being an
order-preserving subsequence of the input. -/
theorem claim_C5_orientation_filter (dicoms : List Dicom) :
    ((orientationGroups dicoms).length = 1 →
        remove_localizers_by_orientation dicoms = some dicoms) ∧
      (1 < (orientationGroups dicoms).length →
        remove_localizers_by_orientation dicoms =
          some ((((orientationGroups dicoms).filter
              (fun g => 4 ≤ g.2.length)).map (fun g => g.2)).flatten) ∧
          ∀ g ∈ orientationGroups dicoms, g.2.Sublist dicoms) := by
  constructor
  · intro h1
    match dicoms with
    | [] => simp [orientationGroups] at h1
    | d :: t =>
        have hsingle : orientationGroups (d :: t) =
            [(d.ImageOrientationPatient, [d] ++ t)] := by
          have : orientationGroups (d :: t) =
              t.foldl addToGroups [(d.ImageOrientationPatient, [d])] := by
            rw [orientationGroups, List.foldl_cons]
            rfl
          rw [this]
          rw [this] at h1
          exact single_group_aux t _ [d] h1
        rw [remove_localizers_by_orientation, hsingle]
        rfl
  · intro h2
    constructor
    · rw [remove_localizers_by_orientation]
      rw [if_pos h2, foldl_extend]
      rfl
    · have := foldl_addToGroups_sublist dicoms [] [] (by simp)
      simpa [orientationGroups] using this

/-- Witness for C5 at the one-slice series: a single orientation group of
size 1 — far below 4 — is returned unchanged. -/
theorem claim_C5_orientation_filter_witness :
    remove_localizers_by_orientation [sliceAt 0] = some [sliceAt 0] :=
  (claim_C5_orientation_filter [sliceAt 0]).1 rfl

/-- C10: there is a non-empty series — two slices with orientations far
apart, giving two groups of one member each — on which the orientation
filter returns the empty list. -/
theorem claim_C10_nonempty_series_filtered_to_empty :
    ∃ ds : List Dicom, ds ≠ [] ∧
      remove_localizers_by_orientation ds = some [] := by
  refine ⟨[sliceAt 0, orthoSlice], by simp, ?_⟩
  norm_num [remove_localizers_by_orientation, orientationGroups, addToGroups,
    orientClose, allclose, closeTo, qabs, sliceAt, orthoSlice, List.foldl,
    List.filter]

/-- C3: in the split-and-resample path the target voxel spacing passed to
the resampler is the zooms triple of the run whose spacing value equals the
10th percentile of the pooled samples within the five-decimal rounding
precision — provided the percentile exists and every run matching the
rounded percentile carries the same zooms (in particular when the match is
unique). -/
theorem claim_C3_voxel_size_selection (runs : List IncrementRun) (p : ℚ)
    (r : IncrementRun)
    (hp : percentile10 (pooledIncrements runs) = some p)
    (hr : r ∈ runs) (hkey : round5 r.spacing = round5 p)
    (huniq : ∀ r' ∈ runs, round5 r'.spacing = round5 p → r'.zooms = r.zooms) :
    chooseVoxelSize runs = some r.zooms := by
  rw [chooseVoxelSize, hp]
  dsimp only
  cases hfind : (runs.map (fun r => (round5 r.spacing, r.zooms))).reverse.find?
      (fun kv => decide (kv.1 = round5 p)) with
  | none =>
      exfalso
      have hmem : (round5 r.spacing, r.zooms) ∈
          (runs.map (fun r => (round5 r.spacing, r.zooms))).reverse := by
        rw [List.mem_reverse]
        exact List.mem_map_of_mem _ hr
      have hnone := List.find?_eq_none.1 hfind _ hmem
      simp [hkey] at hnone
  | some kv =>
      have h1 : kv ∈ (runs.map (fun r => (round5 r.spacing, r.zooms))).reverse :=
        List.mem_of_find?_eq_some hfind
      have h2 := List.find?_some hfind
      rw [List.mem_reverse] at h1
      obtain ⟨r', hr', hkv⟩ := List.mem_map.1 h1
      have hz : r'.zooms = r.zooms := by
        apply huniq r' hr'
        have hk1 : kv.1 = round5 p := by simpa using h2
        rw [← hkv] at hk1
        simpa using hk1
      rw [← hkv]
      simp [hz]

/-- Witness for C3 at a single two-slice run with spacing 1 and zooms
(1, 1, 1): the pooled samples are [1], the 10th percentile is 1, and the
selected voxel size is that run's zooms. -/
theorem claim_C3_voxel_size_selection_witness :
    chooseVoxelSize [⟨2, 1, (1, 1, 1)⟩] = some ((1 : ℚ), (1 : ℚ), (1 : ℚ)) :=
  claim_C3_voxel_size_selection [⟨2, 1, (1, 1, 1)⟩] 1 ⟨2, 1, (1, 1, 1)⟩
    (by norm_num [percentile10, pooledIncrements, List.insertionSort,
      List.orderedInsert, List.getD])
    (by simp)
    rfl
    (by
      intro r' hr' h
      rw [List.mem_singleton.1 hr'])
